import Mathlib

/-!
Verification of the message store of `src/src/stores/MessageStore.js`:
a bounded, insertion-ordered cache of messages keyed by snowflake id,
backed by on-demand fetches from a remote API.

The cache is a shallow embedding of a JavaScript `Map`: an association
list in insertion order.  `Map.set` updates a present key in place
(keeping its position) and appends a new key; `Map.delete` removes the
entry; `firstKey` is the key of the oldest surviving entry.
-/

set_option autoImplicit false

namespace MessageStoreSpec

/-- A raw message record as returned by the remote transport
(`data` in the source).  Only the identifier and an opaque content
payload matter to the cache. -/
structure RawMessage where
  id : String
  content : Nat
deriving Repr, DecidableEq

/-- A materialized `Message` entity: `ident` models JavaScript object
identity (which reference it is), `id` the snowflake identifier,
`content` the opaque patched content, and `channelId` the owning
channel tag injected by `MessageStore.add` via `extras`. -/
structure Message where
  ident : Nat
  id : String
  content : Nat
  channelId : String
deriving Repr, DecidableEq

/-- The underlying insertion-ordered map of the store (a JS `Map`). -/
abbrev CacheMap := List (String × Message)

/-- JS `Map.prototype.get`. -/
def mapGet : CacheMap → String → Option Message
  | [], _ => none
  | (k, v) :: rest, key => if k = key then some v else mapGet rest key

/-- JS `Map.prototype.set`: update in place if the key is present
(position preserved), append otherwise. -/
def mapSet : CacheMap → String → Message → CacheMap
  | [], key, value => [(key, value)]
  | (k, v) :: rest, key, value =>
      if k = key then (key, value) :: rest else (k, v) :: mapSet rest key value

/-- JS `Map.prototype.delete`: remove the entry with the given key
(a JS map holds each key at most once, so removing the first
occurrence is exact). -/
def mapDelete : CacheMap → String → CacheMap
  | [], _ => []
  | (k, v) :: rest, key => if k = key then rest else (k, v) :: mapDelete rest key

/-- Modelled from the spec: `firstKey` of the generic container base
(`Collection`, not under `src/`) returns the oldest surviving key,
or absent on an empty map. -/
def firstKey (c : CacheMap) : Option String :=
  c.head?.map Prod.fst

/-- The relevant state of a `MessageStore`: the configured
`client.options.messageCacheMaxSize`, the owning channel's id, the
ordered cache and a counter producing fresh object identities for
newly constructed `Message` objects. -/
structure MessageStore where
  messageCacheMaxSize : Int
  channelId : String
  cache : CacheMap
  nextIdent : Nat
deriving Repr, DecidableEq

/-- `MessageStore.set` (src/src/stores/MessageStore.js:21-26): no-op
when `messageCacheMaxSize` is 0; otherwise, when at or above a
positive maximum, delete the first (oldest) key, then `Map.set`. -/
def MessageStore.set (st : MessageStore) (key : String) (value : Message) : MessageStore :=
  if st.messageCacheMaxSize = 0 then st
  else
    let c :=
      if (st.cache.length : Int) ≥ st.messageCacheMaxSize ∧ st.messageCacheMaxSize > 0 then
        match firstKey st.cache with
        | some k => mapDelete st.cache k
        | none => st.cache
      else st.cache
    { st with cache := mapSet c key value }

/-- A store with an empty cache, as freshly constructed. -/
def emptyStore (maxSize : Int) (ch : String) : MessageStore :=
  ⟨maxSize, ch, [], 0⟩

/-- Apply a sequence of `set` calls to a store. -/
def applySets (st : MessageStore) (ops : List (String × Message)) : MessageStore :=
  ops.foldl (fun s kv => s.set kv.1 kv.2) st


/-- An opaque transport-level error (network, 4xx/5xx); the store
neither inspects nor translates it. -/
structure TransportError where
  code : Nat
deriving Repr, DecidableEq

/-- `ChannelLogsQueryOptions` (src/src/stores/MessageStore.js:28-36):
the query parameters of a batch fetch.  They are forwarded to the
transport and never interpreted locally. -/
structure ChannelLogsQueryOptions where
  limit : Option Nat
  before : Option String
  after : Option String
  around : Option String
deriving Repr, DecidableEq

/-- The default `options = {}` of `_fetchMany`. -/
def defaultOptions : ChannelLogsQueryOptions :=
  ⟨none, none, none, none⟩

/-- The remote transport collaborator (`client.api`), one function per
endpoint used by the store.  Each takes the channel id and returns
either a transport error or the raw response. -/
structure Api where
  getMessage : String → String → Except TransportError RawMessage
  getMessages : String → ChannelLogsQueryOptions → Except TransportError (List RawMessage)
  getPins : String → Except TransportError (List RawMessage)

/-- Modelled from the spec: `Message._patch` (entity collaborator, not
under `src/`) refreshes the cached entity's content in place from a
fresh raw record, preserving its object identity. -/
def patchMessage (m : Message) (data : RawMessage) : Message :=
  { m with content := data.content }

/-- In-place mutation of the object stored under `key`: the cache
holds a reference to the patched object, so patching it updates the
entry at its position without moving it. -/
def patchInCache (st : MessageStore) (key : String) (data : RawMessage) : MessageStore :=
  { st with cache := st.cache.map fun kv =>
      if kv.1 = key then (kv.1, patchMessage kv.2 data) else kv }

/-- Modelled from the spec: `DataStore.add` (generic container base,
not under `src/`) — insert or construct-and-insert: if an entity with
the record's id is already cached it is returned as is; otherwise a
fresh `Message` is constructed from the record (tagged with the owning
channel, per `MessageStore.add`'s `extras`) and stored via the
capacity-checked `set`, then returned. -/
def MessageStore.add (st : MessageStore) (data : RawMessage) : MessageStore × Message :=
  match mapGet st.cache data.id with
  | some existing => (st, existing)
  | none =>
    let m : Message := ⟨st.nextIdent, data.id, data.content, st.channelId⟩
    (MessageStore.set { st with nextIdent := st.nextIdent + 1 } data.id m, m)

/-- `MessageStore._fetchId` (src/src/stores/MessageStore.js:84-89):
look up the id in the cache, issue the single-message read regardless
of the cache hit, patch the cached entity in place when present and
`overwrite` is set, then `add` the response record. -/
def fetchId (api : Api) (st : MessageStore) (messageID : String) (overwrite : Bool) :
    Except TransportError (MessageStore × Message) :=
  let existing := mapGet st.cache messageID
  match api.getMessage st.channelId messageID with
  | .error e => .error e
  | .ok data =>
    let st1 :=
      match existing with
      | some _ => if overwrite then patchInCache st messageID data else st
      | none => st
    .ok (st1.add data)

/-- The result collection of a batch fetch: a `Collection` keyed by
message id, in insertion order (same `Map` semantics as the cache). -/
abbrev MessageCollection := List (String × Message)

/-- One iteration of the batch accumulation loop
(`messages.set(message.id, this.add(message))`): `add` the record to
the store and `set` the resulting entity into the result collection
keyed by its id. -/
def collectStep (acc : MessageStore × MessageCollection) (msg : RawMessage) :
    MessageStore × MessageCollection :=
  let res := acc.1.add msg
  (res.1, mapSet acc.2 msg.id res.2)

/-- The accumulation loop shared by `_fetchMany` and `fetchPinned`:
for each record in response order, `add` it to the store and `set` it
into the result collection. -/
def collectResponse (st : MessageStore) (data : List RawMessage) :
    MessageStore × MessageCollection :=
  data.foldl collectStep (st, [])

/-- `MessageStore._fetchMany` (src/src/stores/MessageStore.js:91-96):
issue the query read, then accumulate the response records in order.
Its only parameter besides the implicit store is `options`. -/
def fetchMany (api : Api) (st : MessageStore) (options : ChannelLogsQueryOptions) :
    Except TransportError (MessageStore × MessageCollection) :=
  match api.getMessages st.channelId options with
  | .error e => .error e
  | .ok data => .ok (collectResponse st data)

/-- `MessageStore.fetchPinned` (src/src/stores/MessageStore.js:76-82):
read the pins endpoint, then accumulate identically to `_fetchMany`. -/
def fetchPinned (api : Api) (st : MessageStore) :
    Except TransportError (MessageStore × MessageCollection) :=
  match api.getPins st.channelId with
  | .error e => .error e
  | .ok data => .ok (collectResponse st data)

/-- The polymorphic first argument of `fetch`: a raw identifier
(a string), query options, or absent. -/
inductive MessageSelector where
  | id (s : String)
  | query (o : ChannelLogsQueryOptions)
  | absent
deriving Repr, DecidableEq

/-- The two result shapes of `fetch`. -/
inductive FetchResult where
  | single (m : Message)
  | many (c : MessageCollection)
deriving Repr, DecidableEq

/-- `MessageStore.fetch` (src/src/stores/MessageStore.js:61-63):
dispatch on `typeof message === 'string'` — a string takes the
single-item path, anything else the batch path.  The batch call
passes `overwrite` in the source, but `_fetchMany` declares only
`options`, so the flag is dropped; an absent selector becomes the
default `options = {}`. -/
def fetch (api : Api) (st : MessageStore) (message : MessageSelector) (overwrite : Bool) :
    Except TransportError (MessageStore × FetchResult) :=
  match message with
  | .id s => (fetchId api st s overwrite).map fun r => (r.1, .single r.2)
  | .query o => (fetchMany api st o).map fun r => (r.1, .many r.2)
  | .absent => (fetchMany api st defaultOptions).map fun r => (r.1, .many r.2)

/-- `MessageResolvable` (src/src/stores/MessageStore.js:100-104):
either an already-materialized `Message` or a snowflake id. -/
inductive MessageResolvable where
  | msg (m : Message)
  | id (s : String)
deriving Repr, DecidableEq

/-- Modelled from the spec: `DataStore.resolve` (not under `src/`) —
an entity input is returned as is; an identifier is looked up in the
cache; pure and synchronous, no remote access. -/
def resolve (st : MessageStore) (r : MessageResolvable) : Option Message :=
  match r with
  | .msg m => some m
  | .id s => mapGet st.cache s

/-- Modelled from the spec: `DataStore.resolveID` (not under `src/`) —
symmetric to `resolve`, returning the identifier form; absent for an
uncached identifier. -/
def resolveID (st : MessageStore) (r : MessageResolvable) : Option String :=
  match r with
  | .msg m => some m.id
  | .id s => (mapGet st.cache s).map Message.id

/-- Concrete message fixture used by witnesses. -/
def mA : Message := ⟨0, "a", 10, "c"⟩

/-- Concrete message fixture used by witnesses. -/
def mB : Message := ⟨1, "b", 11, "c"⟩

/-- Concrete message fixture used by witnesses. -/
def mD : Message := ⟨2, "d", 12, "c"⟩

/-- A concrete transport fixture: the single-message endpoint echoes
the requested id with content 42, the batch endpoints return three
records in the order 3, 2, 1. -/
def apiW : Api :=
  ⟨fun _ mid => .ok ⟨mid, 42⟩,
   fun _ _ => .ok [⟨"3", 3⟩, ⟨"2", 2⟩, ⟨"1", 1⟩],
   fun _ => .ok [⟨"3", 3⟩, ⟨"2", 2⟩, ⟨"1", 1⟩]⟩

/-- A concrete transport fixture whose every endpoint fails with
error code 500. -/
def apiErr : Api :=
  ⟨fun _ _ => .error ⟨500⟩, fun _ _ => .error ⟨500⟩, fun _ => .error ⟨500⟩⟩

/-- A concrete store fixture with capacity 100 and `"a"` cached. -/
def stW : MessageStore := ⟨100, "c", [("a", mA)], 5⟩

/-- A concrete store fixture with the cache disabled (maximum 0). -/
def stZero : MessageStore := ⟨0, "c", [], 0⟩

/-- Updated value fixture for key `"a"`. -/
def eA1 : Message := ⟨3, "a", 21, "c"⟩

/-- Updated value fixture for key `"a"`. -/
def eA2 : Message := ⟨4, "a", 22, "c"⟩

/-- Updated value fixture for key `"b"`. -/
def eB1 : Message := ⟨5, "b", 31, "c"⟩

/-- Updated value fixture for key `"b"`. -/
def eB2 : Message := ⟨6, "b", 32, "c"⟩

/-- A concrete store fixture at capacity: maximum 2, two entries. -/
def stC3 : MessageStore := ⟨2, "c", [("a", mA), ("b", mB)], 5⟩

@[simp] theorem mapGet_nil (key : String) : mapGet [] key = none := rfl

@[simp] theorem mapGet_cons (k : String) (v : Message) (rest : CacheMap) (key : String) :
    mapGet ((k, v) :: rest) key = if k = key then some v else mapGet rest key := rfl

@[simp] theorem mapSet_nil (key : String) (value : Message) :
    mapSet [] key value = [(key, value)] := rfl

@[simp] theorem mapSet_cons (k : String) (v : Message) (rest : CacheMap)
    (key : String) (value : Message) :
    mapSet ((k, v) :: rest) key value =
      if k = key then (key, value) :: rest else (k, v) :: mapSet rest key value := rfl

@[simp] theorem mapDelete_nil (key : String) : mapDelete [] key = [] := rfl

@[simp] theorem mapDelete_cons (k : String) (v : Message) (rest : CacheMap) (key : String) :
    mapDelete ((k, v) :: rest) key =
      if k = key then rest else (k, v) :: mapDelete rest key := rfl

theorem mapGet_eq_none_iff (c : CacheMap) (key : String) :
    mapGet c key = none ↔ key ∉ c.map Prod.fst := by
  induction c with
  | nil => simp
  | cons hd tl ih =>
    obtain ⟨k, v⟩ := hd
    by_cases h : k = key
    · subst h; simp
    · have h' : ¬key = k := fun e => h e.symm
      simp [h, h', ih]

theorem mapSet_of_not_mem (c : CacheMap) (key : String) (value : Message)
    (h : key ∉ c.map Prod.fst) : mapSet c key value = c ++ [(key, value)] := by
  induction c with
  | nil => simp
  | cons hd tl ih =>
    obtain ⟨k, v⟩ := hd
    simp only [List.map_cons, List.mem_cons] at h
    push_neg at h
    have h' : ¬k = key := fun e => h.1 e.symm
    simp [h', ih h.2]

theorem length_mapSet_le (c : CacheMap) (key : String) (value : Message) :
    (mapSet c key value).length ≤ c.length + 1 := by
  induction c with
  | nil => simp
  | cons hd tl ih =>
    obtain ⟨k, v⟩ := hd
    by_cases h : k = key
    · simp [h]
    · simp only [mapSet_cons, if_neg h, List.length_cons]
      omega

theorem map_fst_mapSet_of_get (c : CacheMap) (key : String) (value e : Message)
    (h : mapGet c key = some e) :
    (mapSet c key value).map Prod.fst = c.map Prod.fst := by
  induction c with
  | nil => simp at h
  | cons hd tl ih =>
    obtain ⟨k, v⟩ := hd
    by_cases hk : k = key
    · simp [hk]
    · simp only [mapGet_cons, if_neg hk] at h
      simp [hk, ih h]

theorem length_mapSet_of_get (c : CacheMap) (key : String) (value e : Message)
    (h : mapGet c key = some e) : (mapSet c key value).length = c.length := by
  have := map_fst_mapSet_of_get c key value e h
  have h1 : ((mapSet c key value).map Prod.fst).length = (c.map Prod.fst).length := by rw [this]
  simpa using h1

theorem mapGet_mapSet_self (c : CacheMap) (key : String) (value : Message) :
    mapGet (mapSet c key value) key = some value := by
  induction c with
  | nil => simp
  | cons hd tl ih =>
    obtain ⟨k, v⟩ := hd
    by_cases h : k = key <;> simp [h, ih]

theorem mapGet_append_of_not_mem (c : CacheMap) (tail : CacheMap) (key : String)
    (h : key ∉ c.map Prod.fst) : mapGet (c ++ tail) key = mapGet tail key := by
  induction c with
  | nil => simp
  | cons hd tl ih =>
    obtain ⟨k, v⟩ := hd
    simp only [List.map_cons, List.mem_cons] at h
    push_neg at h
    have h' : ¬k = key := fun e => h.1 e.symm
    simp [h', ih h.2]

@[simp] theorem set_messageCacheMaxSize (st : MessageStore) (key : String) (value : Message) :
    (st.set key value).messageCacheMaxSize = st.messageCacheMaxSize := by
  unfold MessageStore.set
  split <;> rfl

@[simp] theorem set_channelId (st : MessageStore) (key : String) (value : Message) :
    (st.set key value).channelId = st.channelId := by
  unfold MessageStore.set
  split <;> rfl

@[simp] theorem set_nextIdent (st : MessageStore) (key : String) (value : Message) :
    (st.set key value).nextIdent = st.nextIdent := by
  unfold MessageStore.set
  split <;> rfl

theorem set_of_maxSize_zero (st : MessageStore) (key : String) (value : Message)
    (h : st.messageCacheMaxSize = 0) : st.set key value = st := by
  unfold MessageStore.set
  rw [if_pos h]

theorem set_cache_evict (st : MessageStore) (key : String) (value : Message)
    (k0 : String) (v0 : Message) (rest : CacheMap) (hc : st.cache = (k0, v0) :: rest)
    (hge : (st.cache.length : Int) ≥ st.messageCacheMaxSize)
    (hpos : st.messageCacheMaxSize > 0) :
    (st.set key value).cache = mapSet rest key value := by
  unfold MessageStore.set
  rw [if_neg (by omega)]
  simp only [if_pos (And.intro hge hpos)]
  simp [hc, firstKey]

theorem set_cache_noevict (st : MessageStore) (key : String) (value : Message)
    (hne : st.messageCacheMaxSize ≠ 0)
    (hcond : ¬((st.cache.length : Int) ≥ st.messageCacheMaxSize ∧ st.messageCacheMaxSize > 0)) :
    (st.set key value).cache = mapSet st.cache key value := by
  unfold MessageStore.set
  rw [if_neg hne]
  simp only [if_neg hcond]

theorem set_length_le (st : MessageStore) (key : String) (value : Message)
    (hpos : 0 < st.messageCacheMaxSize)
    (hle : (st.cache.length : Int) ≤ st.messageCacheMaxSize) :
    ((st.set key value).cache.length : Int) ≤ st.messageCacheMaxSize := by
  by_cases hge : (st.cache.length : Int) ≥ st.messageCacheMaxSize
  · have hlen : (st.cache.length : Int) = st.messageCacheMaxSize := le_antisymm hle hge
    obtain ⟨k0, v0, rest, hc⟩ : ∃ k0 v0 rest, st.cache = (k0, v0) :: rest := by
      cases hcs : st.cache with
      | nil => rw [hcs] at hlen; simp at hlen; omega
      | cons a b => exact ⟨a.1, a.2, b, by simp [hcs]⟩
    rw [set_cache_evict st key value k0 v0 rest hc hge hpos]
    have h1 : (mapSet rest key value).length ≤ rest.length + 1 := length_mapSet_le rest key value
    have h2 : st.cache.length = rest.length + 1 := by rw [hc]; rfl
    omega
  · rw [set_cache_noevict st key value (by omega) (fun hand => hge hand.1)]
    have h1 : (mapSet st.cache key value).length ≤ st.cache.length + 1 :=
      length_mapSet_le st.cache key value
    omega

@[simp] theorem applySets_nil (st : MessageStore) : applySets st [] = st := rfl

theorem applySets_cons (st : MessageStore) (op : String × Message)
    (ops : List (String × Message)) :
    applySets st (op :: ops) = applySets (st.set op.1 op.2) ops := rfl

theorem applySets_length_le (ops : List (String × Message)) (st : MessageStore)
    (hpos : 0 < st.messageCacheMaxSize)
    (hle : (st.cache.length : Int) ≤ st.messageCacheMaxSize) :
    ((applySets st ops).cache.length : Int) ≤ st.messageCacheMaxSize := by
  induction ops generalizing st with
  | nil => simpa using hle
  | cons op ops ih =>
    rw [applySets_cons]
    have hstep := set_length_le st op.1 op.2 hpos hle
    have hrec := ih (st.set op.1 op.2)
      (by rw [set_messageCacheMaxSize]; exact hpos)
      (by rw [set_messageCacheMaxSize]; exact hstep)
    rwa [set_messageCacheMaxSize] at hrec

theorem applySets_of_maxSize_zero (ops : List (String × Message)) (st : MessageStore)
    (h : st.messageCacheMaxSize = 0) : applySets st ops = st := by
  induction ops generalizing st with
  | nil => rfl
  | cons op ops ih =>
    rw [applySets_cons, set_of_maxSize_zero st op.1 op.2 h]
    exact ih st h

/-- C1: starting from an empty cache, after every sequence of `set`
calls (hence after each call, since the statement quantifies over all
sequences and so over every prefix) the cache size is at most the
configured maximum when the maximum is positive, and the cache is
empty — nothing was ever stored — when the maximum is 0. -/
theorem capacity_invariant (maxSize : Int) (ch : String) (ops : List (String × Message)) :
    (0 < maxSize → ((applySets (emptyStore maxSize ch) ops).cache.length : Int) ≤ maxSize) ∧
    (maxSize = 0 → (applySets (emptyStore maxSize ch) ops).cache = []) := by
  constructor
  · intro hpos
    exact applySets_length_le ops (emptyStore maxSize ch) hpos (by simp [emptyStore]; omega)
  · intro h0
    rw [applySets_of_maxSize_zero ops (emptyStore maxSize ch) h0]
    rfl

/-- Witness for C1 at maximum 2 with three inserts, and at maximum 0
with one insert. -/
theorem capacity_invariant_witness :
    ((0 : Int) < 2 ∧
      ((applySets (emptyStore 2 "c")
        [("a", ⟨0, "a", 0, "c"⟩), ("b", ⟨1, "b", 0, "c"⟩),
         ("d", ⟨2, "d", 0, "c"⟩)]).cache.length : Int) ≤ 2) ∧
    ((applySets (emptyStore 0 "c") [("a", ⟨0, "a", 0, "c"⟩)]).cache = []) :=
  ⟨⟨by decide,
    (capacity_invariant 2 "c"
      [("a", ⟨0, "a", 0, "c"⟩), ("b", ⟨1, "b", 0, "c"⟩), ("d", ⟨2, "d", 0, "c"⟩)]).1
      (by decide)⟩,
   (capacity_invariant 0 "c" [("a", ⟨0, "a", 0, "c"⟩)]).2 rfl⟩

theorem applySets_messageCacheMaxSize (ops : List (String × Message)) (st : MessageStore) :
    (applySets st ops).messageCacheMaxSize = st.messageCacheMaxSize := by
  induction ops generalizing st with
  | nil => rfl
  | cons op ops ih => rw [applySets_cons, ih, set_messageCacheMaxSize]

theorem applySets_append (st : MessageStore) (l1 l2 : List (String × Message)) :
    applySets st (l1 ++ l2) = applySets (applySets st l1) l2 := by
  simp [applySets, List.foldl_append]

/-- While there is room left and all inserted keys are fresh and
distinct, a run of `set` calls appends the pairs in order without
evicting anything. -/
theorem applySets_cache_of_fresh (ops : List (String × Message)) (st : MessageStore)
    (hpos : 0 < st.messageCacheMaxSize)
    (hroom : (st.cache.length : Int) + ops.length ≤ st.messageCacheMaxSize)
    (hfresh : ∀ op ∈ ops, op.1 ∉ st.cache.map Prod.fst)
    (hnodup : (ops.map Prod.fst).Nodup) :
    (applySets st ops).cache = st.cache ++ ops := by
  induction ops generalizing st with
  | nil => simp
  | cons op ops ih =>
    rw [applySets_cons]
    have hopfresh : op.1 ∉ st.cache.map Prod.fst := hfresh op (List.mem_cons_self op ops)
    have hlencons : ((op :: ops).length : Int) = ops.length + 1 := by simp
    have hnoevict :
        ¬((st.cache.length : Int) ≥ st.messageCacheMaxSize ∧ st.messageCacheMaxSize > 0) := by
      intro hand
      rw [hlencons] at hroom
      omega
    have hcache : (st.set op.1 op.2).cache = st.cache ++ [op] := by
      rw [set_cache_noevict st op.1 op.2 (by omega) hnoevict,
          mapSet_of_not_mem st.cache op.1 op.2 hopfresh]
    have hpair : op.1 ∉ ops.map Prod.fst ∧ (ops.map Prod.fst).Nodup := by
      rw [List.map_cons, List.nodup_cons] at hnodup
      exact hnodup
    have hrec := ih (st.set op.1 op.2)
      (by rw [set_messageCacheMaxSize]; exact hpos)
      (by
        rw [set_messageCacheMaxSize, hcache]
        rw [hlencons] at hroom
        simp only [List.length_append, List.length_cons, List.length_nil]
        push_cast
        omega)
      (by
        intro op' hop'
        rw [hcache]
        simp only [List.map_append, List.mem_append]
        rintro (hin | hin)
        · exact hfresh op' (List.mem_cons_of_mem op hop') hin
        · simp only [List.map_cons, List.map_nil, List.mem_singleton] at hin
          exact hpair.1 (hin ▸ List.mem_map_of_mem Prod.fst hop'))
      hpair.2
    rw [hrec, hcache]
    simp

/-- C2: with a positive maximum `N` and an empty cache, inserting
`N + 1` pairs with distinct keys leaves exactly the last `N` pairs, in
order: the oldest key is the one evicted. -/
theorem eviction_order (N : Nat) (ch : String) (ops : List (String × Message))
    (hlen : ops.length = N + 1) (hN : 0 < N)
    (hnodup : (ops.map Prod.fst).Nodup) :
    (applySets (emptyStore (N : Int) ch) ops).cache = ops.tail := by
  have hne : ops ≠ [] := by
    intro h
    rw [h] at hlen
    simp at hlen
  obtain ⟨init, last, hdecomp⟩ : ∃ init last, ops = init ++ [last] :=
    ⟨ops.dropLast, ops.getLast hne, (List.dropLast_append_getLast hne).symm⟩
  subst hdecomp
  have hinitlen : init.length = N := by simpa using hlen
  obtain ⟨p0, rest, hinit⟩ : ∃ p0 rest, init = p0 :: rest := by
    cases h : init with
    | nil => rw [h] at hinitlen; simp at hinitlen; omega
    | cons a b => exact ⟨a, b, rfl⟩
  have hkeys : ((init.map Prod.fst) ++ [last.1]).Nodup := by simpa using hnodup
  have hinitnodup : (init.map Prod.fst).Nodup := hkeys.of_append_left
  have hlastfresh : last.1 ∉ init.map Prod.fst := by
    intro hmem
    exact (List.disjoint_of_nodup_append hkeys) hmem (List.mem_singleton_self last.1)
  have hNpos : (0 : Int) < (N : Int) := by exact_mod_cast hN
  have hfill : (applySets (emptyStore (N : Int) ch) init).cache = init := by
    have := applySets_cache_of_fresh init (emptyStore (N : Int) ch)
      (by simpa [emptyStore] using hNpos)
      (by simp [emptyStore]; omega)
      (by simp [emptyStore])
      hinitnodup
    simpa [emptyStore] using this
  rw [applySets_append]
  have hmax : (applySets (emptyStore (N : Int) ch) init).messageCacheMaxSize = (N : Int) := by
    rw [applySets_messageCacheMaxSize]
    rfl
  have hstep : applySets (applySets (emptyStore (N : Int) ch) init) [last] =
      (applySets (emptyStore (N : Int) ch) init).set last.1 last.2 := rfl
  rw [hstep]
  have hcachenow : (applySets (emptyStore (N : Int) ch) init).cache = (p0.1, p0.2) :: rest := by
    rw [hfill, hinit]
  have hevict := set_cache_evict (applySets (emptyStore (N : Int) ch) init) last.1 last.2
    p0.1 p0.2 rest hcachenow
    (by rw [hfill, hinitlen, hmax])
    (by rw [hmax]; exact hNpos)
  rw [hevict, mapSet_of_not_mem rest last.1 last.2
    (by
      intro hmem
      apply hlastfresh
      rw [hinit]
      exact List.mem_cons_of_mem p0.1 hmem)]
  rw [hinit]
  simp

/-- Witness for C2 at `N = 2` with the three distinct keys
`"a"`, `"b"`, `"d"`. -/
theorem eviction_order_witness :
    ([("a", mA), ("b", mB), ("d", mD)] : List (String × Message)).length = 2 + 1 ∧
    (applySets (emptyStore 2 "c") [("a", mA), ("b", mB), ("d", mD)]).cache =
      [("b", mB), ("d", mD)] :=
  ⟨rfl, eviction_order 2 "c" [("a", mA), ("b", mB), ("d", mD)] rfl (by decide) (by decide)⟩

/-- C3 fails as stated: in a store at capacity (maximum 2, entries
`"a"`, `"b"`), updating the already-present key `"b"` twice shrinks
the cache from 2 entries to 1 and evicts `"a"`, because `set` checks
`size >= maxSize` before checking key membership. -/
theorem update_in_place_counterexample :
    mapGet stC3.cache "b" = some mB ∧
    ((stC3.set "b" eB1).set "b" eB2).cache.length ≠ stC3.cache.length ∧
    mapGet ((stC3.set "b" eB1).set "b" eB2).cache "a" = none := by
  decide

/-- C3 amended: when the cache is strictly below a positive maximum,
or the maximum is negative (unbounded), updating a present key twice
keeps the key sequence (hence size and the key's position) unchanged,
evicts nothing, and leaves `get` returning the second value. -/
theorem update_in_place_amended (st : MessageStore) (key : String) (e0 e1 e2 : Message)
    (hmem : mapGet st.cache key = some e0)
    (hroom : (st.cache.length : Int) < st.messageCacheMaxSize ∨ st.messageCacheMaxSize < 0) :
    ((st.set key e1).set key e2).cache.map Prod.fst = st.cache.map Prod.fst ∧
    mapGet ((st.set key e1).set key e2).cache key = some e2 ∧
    ((st.set key e1).set key e2).cache.length = st.cache.length := by
  have hne : st.messageCacheMaxSize ≠ 0 := by rcases hroom with h | h <;> omega
  have hcond1 :
      ¬((st.cache.length : Int) ≥ st.messageCacheMaxSize ∧ st.messageCacheMaxSize > 0) := by
    rcases hroom with h | h <;> (intro hand; omega)
  have hc1 : (st.set key e1).cache = mapSet st.cache key e1 :=
    set_cache_noevict st key e1 hne hcond1
  have hlen1 : (st.set key e1).cache.length = st.cache.length := by
    rw [hc1]
    exact length_mapSet_of_get st.cache key e1 e0 hmem
  have hne2 : (st.set key e1).messageCacheMaxSize ≠ 0 := by
    rw [set_messageCacheMaxSize]; exact hne
  have hcond2 : ¬(((st.set key e1).cache.length : Int) ≥ (st.set key e1).messageCacheMaxSize ∧
      (st.set key e1).messageCacheMaxSize > 0) := by
    rw [set_messageCacheMaxSize, hlen1]
    exact hcond1
  have hc2 : ((st.set key e1).set key e2).cache = mapSet (mapSet st.cache key e1) key e2 := by
    rw [set_cache_noevict (st.set key e1) key e2 hne2 hcond2, hc1]
  have hget1 : mapGet (mapSet st.cache key e1) key = some e1 :=
    mapGet_mapSet_self st.cache key e1
  refine ⟨?keys, ?gets, ?len⟩
  case keys =>
    rw [hc2, map_fst_mapSet_of_get (mapSet st.cache key e1) key e2 e1 hget1,
        map_fst_mapSet_of_get st.cache key e1 e0 hmem]
  case gets =>
    rw [hc2]
    exact mapGet_mapSet_self (mapSet st.cache key e1) key e2
  case len =>
    rw [hc2, length_mapSet_of_get (mapSet st.cache key e1) key e2 e1 hget1,
        length_mapSet_of_get st.cache key e1 e0 hmem]

/-- Witness for the amended C3 on the fixture store with capacity 100
and one cached entry. -/
theorem update_in_place_amended_witness :
    mapGet stW.cache "a" = some mA ∧
    ((stW.set "a" eA1).set "a" eA2).cache.map Prod.fst = stW.cache.map Prod.fst ∧
    mapGet ((stW.set "a" eA1).set "a" eA2).cache "a" = some eA2 ∧
    ((stW.set "a" eA1).set "a" eA2).cache.length = stW.cache.length :=
  ⟨by decide,
   update_in_place_amended stW "a" mA eA1 eA2 (by decide) (Or.inl (by decide))⟩

theorem mapGet_map_patch (c : CacheMap) (key : String) (data : RawMessage) (e : Message)
    (h : mapGet c key = some e) :
    mapGet (c.map fun kv => if kv.1 = key then (kv.1, patchMessage kv.2 data) else kv) key =
      some (patchMessage e data) := by
  induction c with
  | nil => simp at h
  | cons hd tl ih =>
    obtain ⟨k, v⟩ := hd
    by_cases hk : k = key
    · subst hk
      have hv : v = e := by simpa using h
      simp [hv]
    · simp only [mapGet_cons, if_neg hk] at h
      simp [hk, ih h]

/-- C4: when the transport answers the single-message read for `mid`
with a record carrying that id, `_fetchId` behaves as specified —
with a cache hit and `overwrite = false` both the store and the
returned entity are the untouched cached object; with a cache hit and
`overwrite = true` the cached entity's content is refreshed in place,
its object identity preserved; with a cache miss a fresh entity built
from the record is returned and inserted through the capacity-checked
`set`. -/
theorem fetch_single_merges (api : Api) (st : MessageStore) (mid : String) (data : RawMessage)
    (hresp : api.getMessage st.channelId mid = .ok data) (hid : data.id = mid) :
    (∀ e, mapGet st.cache mid = some e →
      fetchId api st mid false = .ok (st, e)) ∧
    (∀ e, mapGet st.cache mid = some e →
      fetchId api st mid true = .ok (patchInCache st mid data, patchMessage e data) ∧
      (patchMessage e data).ident = e.ident ∧
      (patchMessage e data).content = data.content ∧
      mapGet (patchInCache st mid data).cache mid = some (patchMessage e data)) ∧
    (mapGet st.cache mid = none → ∀ ow,
      fetchId api st mid ow =
        .ok (MessageStore.set { st with nextIdent := st.nextIdent + 1 } mid
               ⟨st.nextIdent, mid, data.content, st.channelId⟩,
             ⟨st.nextIdent, mid, data.content, st.channelId⟩)) := by
  subst hid
  refine ⟨?hit, ?hitow, ?miss⟩
  case hit =>
    intro e hmem
    unfold fetchId
    rw [hresp]
    simp only [hmem, Bool.false_eq_true, if_false, MessageStore.add, hmem]
  case hitow =>
    intro e hmem
    have hpatched : mapGet (patchInCache st data.id data).cache data.id =
        some (patchMessage e data) := mapGet_map_patch st.cache data.id data e hmem
    refine ⟨?eq, rfl, rfl, hpatched⟩
    unfold fetchId
    rw [hresp]
    simp only [hmem, if_true, MessageStore.add, hpatched]
  case miss =>
    intro hmem ow
    unfold fetchId
    rw [hresp]
    simp only [hmem, MessageStore.add, hmem]

/-- Witness for C4 on the fixture store (capacity 100, `"a"` cached
as `mA`) and the echoing transport fixture. -/
theorem fetch_single_merges_witness :
    fetchId apiW stW "a" false = .ok (stW, mA) ∧
    fetchId apiW stW "a" true =
      .ok (patchInCache stW "a" ⟨"a", 42⟩, patchMessage mA ⟨"a", 42⟩) :=
  ⟨(fetch_single_merges apiW stW "a" ⟨"a", 42⟩ rfl rfl).1 mA (by decide),
   ((fetch_single_merges apiW stW "a" ⟨"a", 42⟩ rfl rfl).2.1 mA (by decide)).1⟩

/-- The batch accumulation loop, on records with fresh distinct ids
and enough capacity, appends to the result collection and to the
cache in response order, keyed by record id. -/
theorem collectFold_spec (data : List RawMessage) (st : MessageStore) (coll : MessageCollection)
    (hnodup : (data.map RawMessage.id).Nodup)
    (hfreshCache : ∀ r ∈ data, r.id ∉ st.cache.map Prod.fst)
    (hfreshColl : ∀ r ∈ data, r.id ∉ coll.map Prod.fst)
    (hcap : st.messageCacheMaxSize < 0 ∨
      (st.cache.length : Int) + data.length ≤ st.messageCacheMaxSize) :
    (data.foldl collectStep (st, coll)).2.map Prod.fst =
      coll.map Prod.fst ++ data.map RawMessage.id ∧
    (data.foldl collectStep (st, coll)).1.cache.map Prod.fst =
      st.cache.map Prod.fst ++ data.map RawMessage.id ∧
    ((∀ kv ∈ coll, kv.2.id = kv.1) →
      ∀ kv ∈ (data.foldl collectStep (st, coll)).2, kv.2.id = kv.1) := by
  induction data generalizing st coll with
  | nil => simp
  | cons r rest ih =>
    simp only [List.length_cons] at hcap
    push_cast at hcap
    have hmem : mapGet st.cache r.id = none :=
      (mapGet_eq_none_iff st.cache r.id).mpr (hfreshCache r (List.mem_cons_self r rest))
    have hne : st.messageCacheMaxSize ≠ 0 := by rcases hcap with h | h <;> omega
    have hcond :
        ¬((st.cache.length : Int) ≥ st.messageCacheMaxSize ∧ st.messageCacheMaxSize > 0) := by
      rcases hcap with h | h <;> (intro hand; omega)
    have hpairs : r.id ∉ rest.map RawMessage.id ∧ (rest.map RawMessage.id).Nodup := by
      rw [List.map_cons, List.nodup_cons] at hnodup
      exact hnodup
    have hadd : st.add r =
        (MessageStore.set { st with nextIdent := st.nextIdent + 1 } r.id
          ⟨st.nextIdent, r.id, r.content, st.channelId⟩,
         ⟨st.nextIdent, r.id, r.content, st.channelId⟩) := by
      unfold MessageStore.add
      rw [hmem]
    have hstep : collectStep (st, coll) r =
        (MessageStore.set { st with nextIdent := st.nextIdent + 1 } r.id
          ⟨st.nextIdent, r.id, r.content, st.channelId⟩,
         mapSet coll r.id ⟨st.nextIdent, r.id, r.content, st.channelId⟩) := by
      unfold collectStep
      rw [hadd]
    have hcache' : (MessageStore.set { st with nextIdent := st.nextIdent + 1 } r.id
        ⟨st.nextIdent, r.id, r.content, st.channelId⟩).cache =
        st.cache ++ [(r.id, ⟨st.nextIdent, r.id, r.content, st.channelId⟩)] := by
      rw [set_cache_noevict { st with nextIdent := st.nextIdent + 1 } r.id
        ⟨st.nextIdent, r.id, r.content, st.channelId⟩ hne hcond]
      exact mapSet_of_not_mem st.cache r.id ⟨st.nextIdent, r.id, r.content, st.channelId⟩
        (hfreshCache r (List.mem_cons_self r rest))
    have hcoll' : mapSet coll r.id ⟨st.nextIdent, r.id, r.content, st.channelId⟩ =
        coll ++ [(r.id, ⟨st.nextIdent, r.id, r.content, st.channelId⟩)] :=
      mapSet_of_not_mem coll r.id ⟨st.nextIdent, r.id, r.content, st.channelId⟩
        (hfreshColl r (List.mem_cons_self r rest))
    have hrec := ih (MessageStore.set { st with nextIdent := st.nextIdent + 1 } r.id
        ⟨st.nextIdent, r.id, r.content, st.channelId⟩)
      (mapSet coll r.id ⟨st.nextIdent, r.id, r.content, st.channelId⟩)
      hpairs.2
      (by
        intro r' hr'
        rw [hcache']
        simp only [List.map_append, List.mem_append, List.map_cons, List.map_nil,
          List.mem_singleton]
        rintro (hin | hin)
        · exact hfreshCache r' (List.mem_cons_of_mem r hr') hin
        · exact hpairs.1 (hin ▸ List.mem_map_of_mem RawMessage.id hr'))
      (by
        intro r' hr'
        rw [hcoll']
        simp only [List.map_append, List.mem_append, List.map_cons, List.map_nil,
          List.mem_singleton]
        rintro (hin | hin)
        · exact hfreshColl r' (List.mem_cons_of_mem r hr') hin
        · exact hpairs.1 (hin ▸ List.mem_map_of_mem RawMessage.id hr'))
      (by
        rw [set_messageCacheMaxSize, hcache']
        rcases hcap with h | h
        · exact Or.inl h
        · refine Or.inr ?bound
          simp only [List.length_append, List.length_cons, List.length_nil]
          push_cast
          omega)
    rw [List.foldl_cons, hstep]
    refine ⟨?collkeys, ?cachekeys, ?wf⟩
    case collkeys =>
      rw [hrec.1, hcoll']
      simp
    case cachekeys =>
      rw [hrec.2.1, hcache']
      simp
    case wf =>
      intro hwf
      refine hrec.2.2 ?wfstep
      rw [hcoll']
      intro kv hkv
      rcases List.mem_append.mp hkv with hin | hin
      · exact hwf kv hin
      · rw [List.mem_singleton.mp hin]

/-- C5: given a batch response whose records carry fresh, distinct
ids and a store with room for them, both `_fetchMany` (for any query
options) and `fetchPinned` return the accumulated collection, the
collection's iteration order is exactly the response order of the
record ids, each collection entry is keyed by its entity's id, and
every record is appended to the cache in response order. -/
theorem batch_order_preservation (api : Api) (st : MessageStore) (data : List RawMessage)
    (hnodup : (data.map RawMessage.id).Nodup)
    (hfresh : ∀ r ∈ data, r.id ∉ st.cache.map Prod.fst)
    (hcap : st.messageCacheMaxSize < 0 ∨
      (st.cache.length : Int) + data.length ≤ st.messageCacheMaxSize) :
    (∀ o, api.getMessages st.channelId o = .ok data →
      fetchMany api st o = .ok (collectResponse st data)) ∧
    (api.getPins st.channelId = .ok data →
      fetchPinned api st = .ok (collectResponse st data)) ∧
    (collectResponse st data).2.map Prod.fst = data.map RawMessage.id ∧
    (collectResponse st data).1.cache.map Prod.fst =
      st.cache.map Prod.fst ++ data.map RawMessage.id ∧
    (∀ kv ∈ (collectResponse st data).2, kv.2.id = kv.1) := by
  have hfold := collectFold_spec data st [] hnodup hfresh (by simp) hcap
  refine ⟨?many, ?pins, ?collkeys, ?cachekeys, ?wf⟩
  case many =>
    intro o ho
    unfold fetchMany
    rw [ho]
  case pins =>
    intro hp
    unfold fetchPinned
    rw [hp]
  case collkeys =>
    have := hfold.1
    simpa [collectResponse] using this
  case cachekeys =>
    exact hfold.2.1
  case wf =>
    exact hfold.2.2 (by simp)

/-- Witness for C5: the three-record response `3, 2, 1` against the
fixture store caching only `"a"`. -/
theorem batch_order_preservation_witness :
    fetchMany apiW stW defaultOptions =
      .ok (collectResponse stW [⟨"3", 3⟩, ⟨"2", 2⟩, ⟨"1", 1⟩]) ∧
    (collectResponse stW [⟨"3", 3⟩, ⟨"2", 2⟩, ⟨"1", 1⟩]).2.map Prod.fst = ["3", "2", "1"] ∧
    (collectResponse stW [⟨"3", 3⟩, ⟨"2", 2⟩, ⟨"1", 1⟩]).1.cache.map Prod.fst =
      ["a", "3", "2", "1"] :=
  ⟨(batch_order_preservation apiW stW [⟨"3", 3⟩, ⟨"2", 2⟩, ⟨"1", 1⟩]
      (by decide) (by decide) (Or.inr (by decide))).1 defaultOptions rfl,
   (batch_order_preservation apiW stW [⟨"3", 3⟩, ⟨"2", 2⟩, ⟨"1", 1⟩]
      (by decide) (by decide) (Or.inr (by decide))).2.2.1,
   (batch_order_preservation apiW stW [⟨"3", 3⟩, ⟨"2", 2⟩, ⟨"1", 1⟩]
      (by decide) (by decide) (Or.inr (by decide))).2.2.2.1⟩

theorem fetch_id_eq (api : Api) (st : MessageStore) (s : String) (ow : Bool) :
    fetch api st (MessageSelector.id s) ow =
      (fetchId api st s ow).map fun r => (r.1, FetchResult.single r.2) := rfl

theorem fetch_query_eq (api : Api) (st : MessageStore) (o : ChannelLogsQueryOptions) (ow : Bool) :
    fetch api st (MessageSelector.query o) ow =
      (fetchMany api st o).map fun r => (r.1, FetchResult.many r.2) := rfl

theorem fetch_absent_eq (api : Api) (st : MessageStore) (ow : Bool) :
    fetch api st MessageSelector.absent ow =
      (fetchMany api st defaultOptions).map fun r => (r.1, FetchResult.many r.2) := rfl

theorem fetchId_error (api : Api) (st : MessageStore) (mid : String) (ow : Bool)
    (e : TransportError) (h : api.getMessage st.channelId mid = .error e) :
    fetchId api st mid ow = .error e := by
  unfold fetchId
  rw [h]

theorem fetchMany_error (api : Api) (st : MessageStore) (o : ChannelLogsQueryOptions)
    (e : TransportError) (h : api.getMessages st.channelId o = .error e) :
    fetchMany api st o = .error e := by
  unfold fetchMany
  rw [h]

theorem fetchPinned_error (api : Api) (st : MessageStore)
    (e : TransportError) (h : api.getPins st.channelId = .error e) :
    fetchPinned api st = .error e := by
  unfold fetchPinned
  rw [h]

/-- C6: for every successful `fetch`, the result is a single entity
exactly when the selector was a raw identifier, and an ordered
collection exactly when it was query options or absent. -/
theorem fetch_dispatch (api : Api) (st : MessageStore) (sel : MessageSelector) (ow : Bool)
    (st' : MessageStore) (r : FetchResult)
    (h : fetch api st sel ow = .ok (st', r)) :
    ((∃ m, r = FetchResult.single m) ↔ (∃ s, sel = MessageSelector.id s)) ∧
    ((∃ c, r = FetchResult.many c) ↔
      (sel = MessageSelector.absent ∨ ∃ o, sel = MessageSelector.query o)) := by
  cases sel with
  | id s =>
    have hsingle : ∃ m, r = FetchResult.single m := by
      rw [fetch_id_eq] at h
      cases hres : fetchId api st s ow with
      | error e => rw [hres] at h; exact absurd h (by simp [Except.map])
      | ok p =>
        rw [hres] at h
        simp only [Except.map, Except.ok.injEq] at h
        exact ⟨p.2, (congrArg Prod.snd h).symm⟩
    obtain ⟨m, hm⟩ := hsingle
    subst hm
    refine ⟨⟨fun _ => ⟨s, rfl⟩, fun _ => ⟨m, rfl⟩⟩, ⟨?noc, ?nosel⟩⟩
    case noc =>
      rintro ⟨c, hc⟩
      exact absurd hc (by simp)
    case nosel =>
      rintro (habs | ⟨o, ho⟩)
      · exact absurd habs (by simp)
      · exact absurd ho (by simp)
  | query o =>
    have hmany : ∃ c, r = FetchResult.many c := by
      rw [fetch_query_eq] at h
      cases hres : fetchMany api st o with
      | error e => rw [hres] at h; exact absurd h (by simp [Except.map])
      | ok p =>
        rw [hres] at h
        simp only [Except.map, Except.ok.injEq] at h
        exact ⟨p.2, (congrArg Prod.snd h).symm⟩
    obtain ⟨c, hc⟩ := hmany
    subst hc
    refine ⟨⟨?nom, ?noid⟩, ⟨fun _ => Or.inr ⟨o, rfl⟩, fun _ => ⟨c, rfl⟩⟩⟩
    case nom =>
      rintro ⟨m, hm⟩
      exact absurd hm (by simp)
    case noid =>
      rintro ⟨s, hs⟩
      exact absurd hs (by simp)
  | absent =>
    have hmany : ∃ c, r = FetchResult.many c := by
      rw [fetch_absent_eq] at h
      cases hres : fetchMany api st defaultOptions with
      | error e => rw [hres] at h; exact absurd h (by simp [Except.map])
      | ok p =>
        rw [hres] at h
        simp only [Except.map, Except.ok.injEq] at h
        exact ⟨p.2, (congrArg Prod.snd h).symm⟩
    obtain ⟨c, hc⟩ := hmany
    subst hc
    refine ⟨⟨?nom2, ?noid2⟩, ⟨fun _ => Or.inl rfl, fun _ => ⟨c, rfl⟩⟩⟩
    case nom2 =>
      rintro ⟨m, hm⟩
      exact absurd hm (by simp)
    case noid2 =>
      rintro ⟨s, hs⟩
      exact absurd hs (by simp)

/-- Witness for C6 on the identifier selector `"a"` against the
fixture store and transport. -/
theorem fetch_dispatch_witness :
    ∃ st' r, fetch apiW stW (MessageSelector.id "a") false = .ok (st', r) ∧
      ((∃ m, r = FetchResult.single m) ↔ (∃ s, MessageSelector.id "a" = MessageSelector.id s)) :=
  ⟨stW, FetchResult.single mA, rfl,
   (fetch_dispatch apiW stW (MessageSelector.id "a") false stW (FetchResult.single mA) rfl).1⟩

/-- `_fetchId` at a cache miss: the response record is materialized
with a fresh identity and stored through the capacity-checked `set`. -/
theorem fetchId_of_uncached (api : Api) (st : MessageStore) (mid : String) (data : RawMessage)
    (ow : Bool) (hresp : api.getMessage st.channelId mid = .ok data)
    (hmem : mapGet st.cache mid = none) (hid : data.id = mid) :
    fetchId api st mid ow =
      .ok (MessageStore.set { st with nextIdent := st.nextIdent + 1 } mid
             ⟨st.nextIdent, mid, data.content, st.channelId⟩,
           ⟨st.nextIdent, mid, data.content, st.channelId⟩) := by
  subst hid
  unfold fetchId
  rw [hresp]
  simp only [hmem, MessageStore.add, hmem]

/-- C7: with the configured maximum 0 (and hence an empty cache —
see `capacity_invariant`), fetching any identifier still returns the
entity built from the remote record, but the store keeps an empty
cache and `get` on the identifier stays absent. -/
theorem disabled_cache (api : Api) (st : MessageStore) (mid : String) (data : RawMessage)
    (ow : Bool) (hmax : st.messageCacheMaxSize = 0) (hempty : st.cache = [])
    (hresp : api.getMessage st.channelId mid = .ok data) (hid : data.id = mid) :
    fetch api st (MessageSelector.id mid) ow =
      .ok ({ st with nextIdent := st.nextIdent + 1 },
           FetchResult.single ⟨st.nextIdent, mid, data.content, st.channelId⟩) ∧
    mapGet ({ st with nextIdent := st.nextIdent + 1 } : MessageStore).cache mid = none := by
  have hmem : mapGet st.cache mid = none := by rw [hempty]; rfl
  have hfid := fetchId_of_uncached api st mid data ow hresp hmem hid
  constructor
  · rw [fetch_id_eq, hfid, set_of_maxSize_zero { st with nextIdent := st.nextIdent + 1 } mid
      ⟨st.nextIdent, mid, data.content, st.channelId⟩ hmax]
    rfl
  · show mapGet st.cache mid = none
    exact hmem

/-- Witness for C7: fetching `"x"` through the disabled-cache fixture
store. -/
theorem disabled_cache_witness :
    fetch apiW stZero (MessageSelector.id "x") false =
      .ok ({ stZero with nextIdent := 1 }, FetchResult.single ⟨0, "x", 42, "c"⟩) ∧
    mapGet ({ stZero with nextIdent := 1 } : MessageStore).cache "x" = none :=
  disabled_cache apiW stZero "x" ⟨"x", 42⟩ false rfl rfl rfl rfl

/-- C8: `resolve` and `resolveID` are pure cache reads — in this
embedding they take the store and return only an option, so they can
neither mutate the cache nor reach the transport — and on each input
shape they behave as specified: an entity input resolves to itself
and its id, an uncached identifier resolves to absent, and a cached
identifier resolves to the cached entity and its id. -/
theorem resolve_purity (st : MessageStore) :
    (∀ m, resolve st (.msg m) = some m ∧ resolveID st (.msg m) = some m.id) ∧
    (∀ s, mapGet st.cache s = none →
      resolve st (.id s) = none ∧ resolveID st (.id s) = none) ∧
    (∀ s e, mapGet st.cache s = some e →
      resolve st (.id s) = some e ∧ resolveID st (.id s) = some e.id) := by
  refine ⟨fun m => ⟨rfl, rfl⟩, fun s h => ⟨?u1, ?u2⟩, fun s e h => ⟨?c1, ?c2⟩⟩ <;>
    simp [resolve, resolveID, h]

/-- Witness for C8: an entity input, the uncached id `"z"` and the
cached id `"a"` on the fixture store. -/
theorem resolve_purity_witness :
    resolve stW (.msg mB) = some mB ∧
    resolve stW (.id "z") = none ∧
    resolveID stW (.id "a") = some "a" :=
  ⟨((resolve_purity stW).1 mB).1,
   ((resolve_purity stW).2.1 "z" (by decide)).1,
   ((resolve_purity stW).2.2 "a" mA (by decide)).2⟩

/-- C9: a transport error is returned unchanged by every fetch path —
single id, query options, absent options, and pinned — with no
catching, translation or partial collection. -/
theorem transport_error_propagation (api : Api) (st : MessageStore) (e : TransportError) :
    (∀ mid ow, api.getMessage st.channelId mid = .error e →
      fetch api st (MessageSelector.id mid) ow = .error e) ∧
    (∀ o ow, api.getMessages st.channelId o = .error e →
      fetch api st (MessageSelector.query o) ow = .error e) ∧
    (∀ ow, api.getMessages st.channelId defaultOptions = .error e →
      fetch api st MessageSelector.absent ow = .error e) ∧
    (api.getPins st.channelId = .error e → fetchPinned api st = .error e) := by
  refine ⟨?sing, ?many, ?nosel, ?pins⟩
  case sing =>
    intro mid ow h
    rw [fetch_id_eq, fetchId_error api st mid ow e h]
    rfl
  case many =>
    intro o ow h
    rw [fetch_query_eq, fetchMany_error api st o e h]
    rfl
  case nosel =>
    intro ow h
    rw [fetch_absent_eq, fetchMany_error api st defaultOptions e h]
    rfl
  case pins =>
    intro h
    exact fetchPinned_error api st e h

/-- Witness for C9: the always-failing transport fixture on all four
paths. -/
theorem transport_error_propagation_witness :
    fetch apiErr stW (MessageSelector.id "a") true = .error ⟨500⟩ ∧
    fetch apiErr stW (MessageSelector.query defaultOptions) true = .error ⟨500⟩ ∧
    fetch apiErr stW MessageSelector.absent false = .error ⟨500⟩ ∧
    fetchPinned apiErr stW = .error ⟨500⟩ :=
  ⟨(transport_error_propagation apiErr stW ⟨500⟩).1 "a" true rfl,
   (transport_error_propagation apiErr stW ⟨500⟩).2.1 defaultOptions true rfl,
   (transport_error_propagation apiErr stW ⟨500⟩).2.2.1 false rfl,
   (transport_error_propagation apiErr stW ⟨500⟩).2.2.2 rfl⟩

/-- C10: on the batch path the `overwrite` flag is dropped —
`_fetchMany` accepts only the options argument — so `fetch` with a
query-options or absent selector gives identical results (same store,
same collection, same error) for any two values of the flag. -/
theorem overwrite_ignored_on_batch (api : Api) (st : MessageStore)
    (o : ChannelLogsQueryOptions) :
    fetch api st (MessageSelector.query o) true = fetch api st (MessageSelector.query o) false ∧
    (∀ b1 b2 : Bool,
      fetch api st MessageSelector.absent b1 = fetch api st MessageSelector.absent b2) :=
  ⟨rfl, fun _ _ => rfl⟩

end MessageStoreSpec
